import Mathlib

/-!
Shallow embedding of the text-similarity core of the plagiarism checker
(`plagiarism_utils.py`), together with proofs of the specified properties.

Conventions of the embedding:
* Python floats are modelled exactly: scores computed with rational
  arithmetic only are modelled in `ℚ`; the cosine score, which divides by
  `math.sqrt` values, is modelled in `ℝ`.
* The external collaborators that are not part of this repository are
  modelled as parameters: the `jieba` word segmenter is a parameter
  `cut : String → List String`, the `synonym_database.get_synonyms` table is
  a parameter `syn : String → Finset String` (per the spec a synonym set is
  a finite set of strings containing the token itself), and the byte
  decoders of the Python codec library are a parameter
  `decode : String → List Nat → Option String` (encoding name and raw bytes
  to a decoded string, `none` when the bytes are not valid for the encoding).
* Python's Unicode character classes are modelled pointwise:
  `is_chinese_char` is exact (the CJK Unified Ideographs block), the
  whitespace class is the exact code-point set of CPython's
  `Py_UNICODE_ISSPACE`, and `isalnum`/`lower` for non-CJK characters are
  approximated by their ASCII restrictions (this affects no theorem below).
-/

namespace Plagiarism

/-- `is_chinese_char` from `plagiarism_utils.py`: a character is Chinese iff
it lies in the Unicode range `一`–`鿿`.  (The Python guard
`len(char) == 1` is enforced by the `Char` type.) -/
def is_chinese_char (c : Char) : Bool :=
  0x4e00 ≤ c.toNat && c.toNat ≤ 0x9fff

/-- The punctuation set removed by `preprocess_text`:
`string.punctuation` (the 32 ASCII punctuation characters) followed by the
full-width CJK punctuation listed in the source. -/
def punctuation_chars : List Char :=
  ['!', '"', '#', '$', '%', '&', '\x27', '(', ')', '*', '+', ',', '-', '.',
   '/', ':', ';', '<', '=', '>', '?', '@', '[', '\\', ']', '^', '_', '\x60',
   '\x7b', '|', '\x7d', '~',
   '！', '？', '。', '，', '、', '；', '：', '“', '”', '‘', '’', '（', '）',
   '【', '】', '《', '》']

/-- The code points of CPython's Unicode whitespace class (the class matched
by `\s` in `re.sub(r'\s+', '', ...)` and stripped by `str.strip()`). -/
def py_whitespace : List Nat :=
  [0x09, 0x0a, 0x0b, 0x0c, 0x0d, 0x1c, 0x1d, 0x1e, 0x1f, 0x20,
   0x85, 0xa0, 0x1680,
   0x2000, 0x2001, 0x2002, 0x2003, 0x2004, 0x2005, 0x2006, 0x2007,
   0x2008, 0x2009, 0x200a, 0x2028, 0x2029, 0x202f, 0x205f, 0x3000]

/-- Whether a character is whitespace in Python's sense. -/
def isPySpace (c : Char) : Bool := py_whitespace.contains c.toNat

/-- First cleaning pass of `preprocess_text`:
`text.translate(translator)` deletes every character of the punctuation set. -/
def removePunct (s : List Char) : List Char :=
  s.filter (fun c => !(punctuation_chars.contains c))

/-- Second cleaning pass of `preprocess_text`:
`re.sub(r'\s+', '', edit_str)` deletes every whitespace character (replacing
each maximal whitespace run by the empty string deletes exactly the
whitespace characters). -/
def removeWhitespace (s : List Char) : List Char :=
  s.filter (fun c => !(isPySpace c))

/-- Stage 1 of the tokenizer in `preprocess_text`: walk the characters,
accumulating contiguous non-Chinese alphanumeric characters (lowercased)
into one token, emitting each Chinese character as its own token, and
discarding every other character after flushing the accumulator. -/
def splitScripts : List Char → List Char → List String
  | acc, [] => if acc.isEmpty then [] else [String.mk acc]
  | acc, c :: cs =>
    if c.isAlphanum && !(is_chinese_char c) then
      splitScripts (acc ++ [c.toLower]) cs
    else
      (if acc.isEmpty then [] else [String.mk acc]) ++
        (if is_chinese_char c then [String.singleton c] else []) ++
        splitScripts [] cs

/-- Stage 2 of the tokenizer in `preprocess_text`: group consecutive tokens
containing Chinese characters, hand each concatenated group to the word
segmenter (`jieba.cut`, the parameter `cut`), and pass other tokens through
in place. -/
def regroupCJK (cut : String → List String) : List String → List String → List String
  | tempC, [] => if tempC.isEmpty then [] else cut (String.join tempC)
  | tempC, t :: ts =>
    if t.data.any is_chinese_char then
      regroupCJK cut (tempC ++ [t]) ts
    else
      (if tempC.isEmpty then [] else cut (String.join tempC)) ++
        t :: regroupCJK cut [] ts

/-- `preprocess_text` from `plagiarism_utils.py`: returns the token list
(stage 1, stage 2, then dropping whitespace-only tokens, which models the
filter `token.strip()`) and the cleaned string used for edit distance. -/
def preprocess_text (cut : String → List String) (text : String) :
    List String × String :=
  if text = "" then ([], "")
  else
    (((regroupCJK cut [] (splitScripts [] text.data)).filter
        (fun t => t.data.any (fun c => !(isPySpace c)))),
      String.mk (removeWhitespace (removePunct text.data)))

/-- The candidate-walking loop of `word_frequency_match`: given the table of
remaining counts, walk the candidate tokens in order; a token whose
remaining count is positive counts as matched and decrements its entry. -/
def consumeCount : (String → ℕ) → List String → ℕ
  | _, [] => 0
  | counts, w :: ws =>
    if 0 < counts w then
      1 + consumeCount (fun x => if x = w then counts w - 1 else counts x) ws
    else
      consumeCount counts ws

/-- `word_frequency_match` from `plagiarism_utils.py`: 0 on empty input,
otherwise the number of candidate tokens greedily consumed against the
original token counts, divided by the candidate length. -/
def word_frequency_match (original plagiarized : List String) : ℚ :=
  if original = [] ∨ plagiarized = [] then 0
  else
    (consumeCount (fun w => original.count w) plagiarized : ℚ) /
      (plagiarized.length : ℚ)

/-- The synonym-expanded joint vocabulary of `cosine_similarity_score`:
the union of the synonym sets of all tokens of the given list. -/
def synVocab (syn : String → Finset String) : List String → Finset String
  | [] => ∅
  | t :: ts => syn t ∪ synVocab syn ts

/-- The vector entry built by `get_vector` inside `cosine_similarity_score`:
every occurrence of a token increments the count of each of its synonyms,
so the count of `w` is the number of tokens whose synonym set contains `w`. -/
def synCount (syn : String → Finset String) (tokens : List String) (w : String) : ℕ :=
  tokens.countP (fun t => decide (w ∈ syn t))

/-- The dot product of the two frequency vectors over the joint vocabulary. -/
def synDot (syn : String → Finset String) (original plagiarized : List String) : ℕ :=
  ∑ w in synVocab syn (original ++ plagiarized),
    synCount syn original w * synCount syn plagiarized w

/-- The Euclidean norm (`math.sqrt` of the sum of squared entries) of the
frequency vector of `tokens` over the vocabulary `vocab`. -/
noncomputable def synNorm (syn : String → Finset String) (vocab : Finset String)
    (tokens : List String) : ℝ :=
  Real.sqrt (∑ w in vocab, (synCount syn tokens w : ℝ) ^ 2)

open Classical in
/-- `cosine_similarity_score` from `plagiarism_utils.py`: 0 on empty input,
0 when either vector norm is zero, otherwise the dot product divided by the
product of the norms.  The synonym table `get_synonyms` (imported from
`synonym_database`, not part of this repository) is the parameter `syn`. -/
noncomputable def cosine_similarity_score (syn : String → Finset String)
    (original plagiarized : List String) : ℝ :=
  if original = [] ∨ plagiarized = [] then 0
  else
    if synNorm syn (synVocab syn (original ++ plagiarized)) original = 0 ∨
        synNorm syn (synVocab syn (original ++ plagiarized)) plagiarized = 0 then 0
    else
      (synDot syn original plagiarized : ℝ) /
        (synNorm syn (synVocab syn (original ++ plagiarized)) original *
          synNorm syn (synVocab syn (original ++ plagiarized)) plagiarized)

/-- The Levenshtein recurrence of `edit_distance_similarity`, inner loop:
`levAux a f slen t` is the distance from `a :: s` to `t`, where `f` computes
distances from `s` and `slen = s.length`.  Equal heads cost nothing
(`dp[i][j] = dp[i-1][j-1]`); otherwise one plus the minimum over deletion,
insertion and substitution, exactly the three entries the DP table takes
the minimum of. -/
def levAux (a : Char) (f : List Char → ℕ) (slen : ℕ) : List Char → ℕ
  | [] => slen + 1
  | b :: t =>
    if a = b then f t
    else 1 + min (f (b :: t)) (min (levAux a f slen t) (f t))

/-- The value of the dynamic-programming table of `edit_distance_similarity`:
`lev s t` is the Levenshtein distance between `s` and `t` (unit-cost insert,
delete, substitute).  The DP table of the source memoizes exactly this
recurrence (base rows `dp[i][0] = i`, `dp[0][j] = j`); the recursion here
computes the same values without the memo.  The equivalence with the
row-based dynamic program is proved below (`lev_eq_levenshtein`, against
Mathlib's row-DP implementation). -/
def lev : List Char → List Char → ℕ
  | [], t => t.length
  | a :: s, t => levAux a (lev s) s.length t

/-- `edit_distance_similarity` from `plagiarism_utils.py`: 0 on empty input,
otherwise one minus the edit distance divided by the longer length. -/
def edit_distance_similarity (original plagiarized : String) : ℚ :=
  if original = "" ∨ plagiarized = "" then 0
  else
    1 - (lev original.data plagiarized.data : ℚ) /
      (max original.length plagiarized.length : ℚ)

/-- Modelled from the spec: the body of `calculate_similarity` is absent
from the source (the function consists only of its docstring), so the
fusion is modelled per §4.8 of the spec as the equal-weighted arithmetic
mean of the three scorer outputs, and per §7 the compare operation rejects
empty input (modelled as `none`) instead of silently scoring it. -/
noncomputable def calculate_similarity (syn : String → Finset String)
    (original_tokens plagiarized_tokens : List String)
    (original_str plagiarized_str : String) : Option ℝ :=
  if original_tokens = [] ∨ plagiarized_tokens = [] ∨
      original_str = "" ∨ plagiarized_str = "" then none
  else
    some (((word_frequency_match original_tokens plagiarized_tokens : ℝ) +
        cosine_similarity_score syn original_tokens plagiarized_tokens +
        (edit_distance_similarity original_str plagiarized_str : ℝ)) / 3)

/-- The encoding trial list of `read_file`, in source order. -/
def encodings : List String :=
  ["utf-8", "utf-8-sig", "gbk", "gb2312", "ISO-8859-1", "latin-1"]

/-- Python's `str.strip()`: drop whitespace from both ends. -/
def pyStrip (s : String) : String :=
  String.mk (((s.data.dropWhile isPySpace).reverse.dropWhile isPySpace).reverse)

/-- The blank-content test of `read_file`: after deleting `\r`, `\n` and
spaces nothing remains. -/
def blankContent (s : String) : Bool :=
  (s.data.filter (fun c => !(c = '\x0d' || c = '\x0a' || c = ' '))).isEmpty

/-- The encoding-trial loop of `read_file`: try each encoding in order; a
failed decode (`UnicodeDecodeError`) moves on to the next encoding, a
successful decode is stripped, rejected if blank, and returned. -/
def tryEncodings (decode : String → List Nat → Option String) (data : List Nat) :
    List String → Except String String
  | [] => Except.error "unable to determine the file encoding"
  | enc :: rest =>
    match decode enc data with
    | none => tryEncodings decode data rest
    | some raw =>
      if blankContent (pyStrip raw) then Except.error "file content is blank"
      else Except.ok (pyStrip raw)

/-- `read_file` from `plagiarism_utils.py`, with file access and the codec
library abstracted into `decode`: run the trial loop over the fixed
encoding list. -/
def read_file (decode : String → List Nat → Option String) (data : List Nat) :
    Except String String :=
  tryEncodings decode data encodings

/-- Spec-side restatement of `read_file` for the refinement claim: decode
with the first encoding in the list that succeeds, then post-process
(strip, reject blank content). -/
def read_file_spec (decode : String → List Nat → Option String) (data : List Nat) :
    Except String String :=
  match encodings.findSome? (fun e => decode e data) with
  | none => Except.error "unable to determine the file encoding"
  | some raw =>
    if blankContent (pyStrip raw) then Except.error "file content is blank"
    else Except.ok (pyStrip raw)

/-! ### Frequency-match scorer: helper lemmas -/

/-- The greedy walk never matches more candidate tokens than there are. -/
theorem consumeCount_le_length (p : List String) :
    ∀ cnt : String → ℕ, consumeCount cnt p ≤ p.length := by
  induction p with
  | nil => intro cnt; simp [consumeCount]
  | cons w ws ih =>
    intro cnt
    simp only [consumeCount, List.length_cons]
    split
    · exact Nat.add_le_add_left (ih _) 1 |>.trans_eq (by omega)
    · exact (ih cnt).trans (by omega)

/-- The greedy left-to-right one-to-one consumption matches, for each
distinct candidate token, exactly the smaller of its remaining budget and
its number of candidate occurrences. -/
theorem consumeCount_eq_sum_min (p : List String) :
    ∀ cnt : String → ℕ,
      consumeCount cnt p = ∑ w in p.toFinset, min (cnt w) (p.count w) := by
  induction p with
  | nil => intro cnt; simp [consumeCount]
  | cons w ws ih =>
    intro cnt
    simp only [consumeCount]
    by_cases hpos : 0 < cnt w
    · rw [if_pos hpos, ih]
      by_cases hw : w ∈ ws
      · have hmem : w ∈ ws.toFinset := List.mem_toFinset.mpr hw
        have h1 : ∑ x in ws.toFinset,
              min (if x = w then cnt w - 1 else cnt x) (ws.count x)
            = min (cnt w - 1) (ws.count w) +
                ∑ x in ws.toFinset.erase w, min (cnt x) (ws.count x) := by
          rw [← Finset.add_sum_erase _ _ hmem, if_pos rfl]
          congr 1
          refine Finset.sum_congr rfl fun x hx => ?_
          rw [if_neg (Finset.ne_of_mem_erase hx)]
        have h2 : ∑ x in (w :: ws).toFinset, min (cnt x) ((w :: ws).count x)
            = min (cnt w) (ws.count w + 1) +
                ∑ x in ws.toFinset.erase w, min (cnt x) (ws.count x) := by
          rw [List.toFinset_cons, Finset.insert_eq_self.mpr hmem,
              ← Finset.add_sum_erase _ _ hmem, List.count_cons_self]
          congr 1
          refine Finset.sum_congr rfl fun x hx => ?_
          rw [List.count_cons_of_ne (Finset.ne_of_mem_erase hx)]
        rw [h1, h2]
        omega
      · have hmem : w ∉ ws.toFinset := by simpa using hw
        have hcnt0 : ws.count w = 0 := List.count_eq_zero.mpr hw
        rw [List.toFinset_cons, Finset.sum_insert hmem, List.count_cons_self,
            hcnt0]
        have h3 : ∑ x in ws.toFinset,
              min (if x = w then cnt w - 1 else cnt x) (ws.count x)
            = ∑ x in ws.toFinset, min (cnt x) ((w :: ws).count x) := by
          refine Finset.sum_congr rfl fun x hx => ?_
          have hxw : x ≠ w := fun h => hw (h ▸ List.mem_toFinset.mp hx)
          rw [if_neg hxw, List.count_cons_of_ne hxw]
        rw [h3]
        omega
    · rw [if_neg hpos, ih]
      have hcnt0 : cnt w = 0 := by omega
      by_cases hw : w ∈ ws
      · have hmem : w ∈ ws.toFinset := List.mem_toFinset.mpr hw
        rw [List.toFinset_cons, Finset.insert_eq_self.mpr hmem]
        refine Finset.sum_congr rfl fun x hx => ?_
        by_cases hxw : x = w
        · subst hxw; simp [hcnt0]
        · rw [List.count_cons_of_ne hxw]
      · have hmem : w ∉ ws.toFinset := by simpa using hw
        rw [List.toFinset_cons, Finset.sum_insert hmem, hcnt0]
        have h3 : ∑ x in ws.toFinset, min (cnt x) (ws.count x)
            = ∑ x in ws.toFinset, min (cnt x) ((w :: ws).count x) := by
          refine Finset.sum_congr rfl fun x hx => ?_
          have hxw : x ≠ w := fun h => hw (h ▸ List.mem_toFinset.mp hx)
          rw [List.count_cons_of_ne hxw]
        rw [h3]
        omega

/-- Closed form of the frequency-match score (also valid on empty inputs,
where both sides are `0`). -/
theorem word_frequency_match_eq_min_sum (o p : List String) :
    word_frequency_match o p
      = ((∑ w in p.toFinset, min (o.count w) (p.count w) : ℕ) : ℚ) /
          (p.length : ℚ) := by
  rw [word_frequency_match]
  by_cases ho : o = []
  · subst ho
    simp [List.count_nil]
  · by_cases hp : p = []
    · subst hp; simp
    · rw [if_neg (by tauto), consumeCount_eq_sum_min]

/-- The frequency-match score is nonnegative. -/
theorem word_frequency_match_nonneg (o p : List String) :
    0 ≤ word_frequency_match o p := by
  rw [word_frequency_match]
  split
  · exact le_refl 0
  · exact div_nonneg (Nat.cast_nonneg _) (Nat.cast_nonneg _)

/-- The frequency-match score is at most one. -/
theorem word_frequency_match_le_one (o p : List String) :
    word_frequency_match o p ≤ 1 := by
  rw [word_frequency_match]
  split
  · exact zero_le_one
  · rename_i h
    have hp : p ≠ [] := fun hp => h (Or.inr hp)
    have hlen : 0 < p.length := List.length_pos.mpr hp
    rw [div_le_one (by exact_mod_cast hlen)]
    exact_mod_cast consumeCount_le_length p _

/-- Comparing a non-empty token list with itself scores exactly one. -/
theorem word_frequency_match_self (T : List String) (hT : T ≠ []) :
    word_frequency_match T T = 1 := by
  rw [word_frequency_match_eq_min_sum]
  have hsum : ∑ w in T.toFinset, min (T.count w) (T.count w) = T.length := by
    simp
  rw [hsum]
  have hpos : 0 < T.length := List.length_pos.mpr hT
  have hlen : (T.length : ℚ) ≠ 0 := Nat.cast_ne_zero.mpr (by omega)
  exact div_self hlen

/-! ### Edit-distance scorer: helper lemmas -/

/-- Distance from the empty string: everything is inserted. -/
@[simp] theorem lev_nil_left (t : List Char) : lev [] t = t.length := rfl

/-- Distance to the empty string: everything is deleted. -/
@[simp] theorem lev_nil_right (s : List Char) : lev s [] = s.length := by
  cases s <;> rfl

/-- The DP recurrence, as in the source: equal heads cost nothing,
otherwise one plus the minimum over delete, insert, substitute. -/
theorem lev_cons_cons (a b : Char) (s t : List Char) :
    lev (a :: s) (b :: t) =
      if a = b then lev s t
      else 1 + min (lev s (b :: t)) (min (lev (a :: s) t) (lev s t)) := rfl

/-- The Levenshtein distance is symmetric. -/
theorem lev_comm (s : List Char) : ∀ t, lev s t = lev t s := by
  induction s with
  | nil => intro t; simp
  | cons a as ihs =>
    intro t
    induction t with
    | nil => simp
    | cons b bs iht =>
      rw [lev_cons_cons, lev_cons_cons]
      by_cases hab : a = b
      · rw [if_pos hab, if_pos hab.symm, ihs]
      · rw [if_neg hab, if_neg (fun h => hab h.symm), ← iht, ← ihs (b :: bs),
            ← ihs bs]
        rw [min_left_comm]

/-- The distance from a string to itself is zero. -/
theorem lev_self (s : List Char) : lev s s = 0 := by
  induction s with
  | nil => rfl
  | cons a as ih => rw [lev_cons_cons, if_pos rfl, ih]

/-- The Levenshtein distance is at most the longer length. -/
theorem lev_le_max (s : List Char) : ∀ t, lev s t ≤ max s.length t.length := by
  induction s with
  | nil => intro t; simp
  | cons a as ihs =>
    intro t
    induction t with
    | nil => simp
    | cons b bs iht =>
      rw [lev_cons_cons]
      by_cases hab : a = b
      · rw [if_pos hab]
        have := ihs bs
        simp only [List.length_cons]
        omega
      · rw [if_neg hab]
        have h1 : min (lev as (b :: bs)) (min (lev (a :: as) bs) (lev as bs)) ≤
            lev as bs := le_trans (min_le_right _ _) (min_le_right _ _)
        have := ihs bs
        simp only [List.length_cons]
        omega

/-- Appending one character to either side changes the distance by at most
one, in both directions (proved jointly by strong induction on the total
length). -/
theorem lev_cons_right_bounds :
    ∀ n s t, List.length s + List.length t ≤ n →
      ∀ b : Char, lev s t ≤ lev s (b :: t) + 1 ∧ lev s (b :: t) ≤ lev s t + 1 := by
  intro n
  induction n with
  | zero =>
    intro s t h b
    match s, t with
    | [], [] => simp
    | a :: as, _ => simp at h
    | [], c :: cs => simp at h
  | succ n ih =>
    intro s t h b
    match s with
    | [] =>
      simp
      omega
    | a :: as =>
      by_cases hab : a = b
      · subst hab
        rw [lev_cons_cons, if_pos rfl]
        have h1 : lev (a :: as) t ≤ lev as t + 1 := by
          rw [lev_comm (a :: as) t, lev_comm as t]
          exact (ih t as (by simp at h ⊢; omega) a).2
        have h2 : lev as t ≤ lev (a :: as) t + 1 := by
          rw [lev_comm (a :: as) t, lev_comm as t]
          exact (ih t as (by simp at h ⊢; omega) a).1
        exact ⟨h1, h2⟩
      · rw [lev_cons_cons, if_neg hab]
        have hX := (ih as t (by simp at h ⊢; omega) b)
        have hY : lev (a :: as) t ≤ lev as t + 1 := by
          rw [lev_comm (a :: as) t, lev_comm as t]
          exact (ih t as (by simp at h ⊢; omega) a).2
        have hY' : lev as t ≤ lev (a :: as) t + 1 := by
          rw [lev_comm (a :: as) t, lev_comm as t]
          exact (ih t as (by simp at h ⊢; omega) a).1
        have hmin : min (lev as (b :: t)) (min (lev (a :: as) t) (lev as t))
              = lev as (b :: t) ∨
            min (lev as (b :: t)) (min (lev (a :: as) t) (lev as t))
              = lev (a :: as) t ∨
            min (lev as (b :: t)) (min (lev (a :: as) t) (lev as t))
              = lev as t := by
          rcases min_cases (lev as (b :: t))
              (min (lev (a :: as) t) (lev as t)) with ⟨h1, _⟩ | ⟨h1, _⟩
          · exact Or.inl h1
          · rcases min_cases (lev (a :: as) t) (lev as t) with ⟨h2, _⟩ | ⟨h2, _⟩
            · exact Or.inr (Or.inl (h1.trans h2))
            · exact Or.inr (Or.inr (h1.trans h2))
        rcases hX with ⟨hX1, hX2⟩
        constructor
        · rcases hmin with hm | hm | hm <;> rw [hm] <;> omega
        · rcases hmin with hm | hm | hm <;> rw [hm] <;> omega

/-- Prepending a character to the right string increases the distance by at
most one less a deletion: `lev s t ≤ lev s (b :: t) + 1`. -/
theorem lev_le_cons_right (s t : List Char) (b : Char) :
    lev s t ≤ lev s (b :: t) + 1 :=
  (lev_cons_right_bounds (s.length + t.length) s t le_rfl b).1

/-- Prepending a character to the left string increases the distance by at
most one: `lev s t ≤ lev (a :: s) t + 1`. -/
theorem lev_le_cons_left (s t : List Char) (a : Char) :
    lev s t ≤ lev (a :: s) t + 1 := by
  rw [lev_comm s t, lev_comm (a :: s) t]
  exact lev_le_cons_right t s a

/-- The recurrence of the source agrees with Mathlib's row-based
dynamic-programming implementation of the classic unit-cost Levenshtein
distance. -/
theorem lev_eq_levenshtein (s : List Char) :
    ∀ t, lev s t = levenshtein Levenshtein.defaultCost s t := by
  induction s with
  | nil =>
    intro t
    induction t with
    | nil => simp
    | cons b bs iht =>
      rw [levenshtein_nil_cons, ← iht, Levenshtein.defaultCost_insert]
      simp only [lev_nil_left, List.length_cons]
      omega
  | cons a as ihs =>
    intro t
    induction t with
    | nil =>
      have hstep : levenshtein Levenshtein.defaultCost (a :: as) ([] : List Char)
          = 1 + levenshtein Levenshtein.defaultCost as [] := by
        simp [Levenshtein.defaultCost]
      rw [hstep, lev_nil_right, ← ihs [], lev_nil_right]
      simp only [List.length_cons]
      omega
    | cons b bs iht =>
      rw [levenshtein_cons_cons, lev_cons_cons]
      simp only [Levenshtein.defaultCost_delete, Levenshtein.defaultCost_insert,
        Levenshtein.defaultCost_substitute]
      rw [← ihs (b :: bs), ← iht, ← ihs bs]
      by_cases hab : a = b
      · rw [if_pos hab, if_pos hab]
        have h1 : lev as bs ≤ 1 + lev as (b :: bs) := by
          have := lev_le_cons_right as bs b
          omega
        have h2 : lev as bs ≤ 1 + lev (a :: as) bs := by
          have := lev_le_cons_left as bs a
          omega
        rw [zero_add, min_eq_right (by omega : lev as bs ≤ 1 + lev (a :: as) bs),
            min_eq_right h1]
      · rw [if_neg hab, if_neg hab, min_add_add_left, min_add_add_left]

/-- A string other than `""` has positive length. -/
theorem string_length_pos {s : String} (h : s ≠ "") : 0 < s.length := by
  cases s with
  | mk l =>
    cases l with
    | nil => exact absurd rfl h
    | cons c cs => simp [String.length]

/-- The edit-distance score is nonnegative. -/
theorem edit_distance_similarity_nonneg (a b : String) :
    0 ≤ edit_distance_similarity a b := by
  rw [edit_distance_similarity]
  split
  · exact le_refl 0
  · rename_i h
    have ha : a ≠ "" := fun ha => h (Or.inl ha)
    have hb : b ≠ "" := fun hb => h (Or.inr hb)
    have hlen : 0 < a.length := string_length_pos ha
    have hmax : (0 : ℚ) < (max a.length b.length : ℕ) := by
      exact_mod_cast lt_max_of_lt_left hlen
    have hlev : lev a.data b.data ≤ max a.length b.length :=
      lev_le_max a.data b.data
    have hdiv : (lev a.data b.data : ℚ) / (max a.length b.length : ℕ) ≤ 1 := by
      rw [div_le_one hmax]
      exact_mod_cast hlev
    push_cast at hdiv ⊢
    linarith

/-- The edit-distance score is at most one. -/
theorem edit_distance_similarity_le_one (a b : String) :
    edit_distance_similarity a b ≤ 1 := by
  rw [edit_distance_similarity]
  split
  · exact zero_le_one
  · rename_i h
    have ha : a ≠ "" := fun ha => h (Or.inl ha)
    have hlen : 0 < a.length := string_length_pos ha
    have hmax : (0 : ℚ) < (max a.length b.length : ℕ) := by
      exact_mod_cast lt_max_of_lt_left hlen
    have hdiv : 0 ≤ (lev a.data b.data : ℚ) / (max a.length b.length : ℕ) :=
      div_nonneg (Nat.cast_nonneg _) (Nat.cast_nonneg _)
    push_cast at hdiv ⊢
    linarith

/-- The edit-distance score is symmetric. -/
theorem edit_distance_similarity_comm (a b : String) :
    edit_distance_similarity a b = edit_distance_similarity b a := by
  rw [edit_distance_similarity, edit_distance_similarity]
  by_cases h : a = "" ∨ b = ""
  · rw [if_pos h, if_pos (Or.symm h)]
  · rw [if_neg h, if_neg (fun hc => h (Or.symm hc)), lev_comm, max_comm]

/-- A non-empty string compared with itself scores exactly one. -/
theorem edit_distance_similarity_self (S : String) (hS : S ≠ "") :
    edit_distance_similarity S S = 1 := by
  rw [edit_distance_similarity, if_neg (by tauto), lev_self]
  have hlen : 0 < S.length := string_length_pos hS
  have hmax : ((max S.length S.length : ℕ) : ℚ) ≠ 0 := by
    have : 0 < max S.length S.length := lt_max_of_lt_left hlen
    exact_mod_cast Nat.pos_iff_ne_zero.mp this
  simp

/-! ### Cosine scorer: helper lemmas -/

/-- The joint vocabulary of a concatenation is the union of vocabularies. -/
theorem synVocab_append (syn : String → Finset String) (a b : List String) :
    synVocab syn (a ++ b) = synVocab syn a ∪ synVocab syn b := by
  induction a with
  | nil => simp [synVocab]
  | cons t ts ih => simp [synVocab, ih, Finset.union_assoc]

/-- The joint vocabulary does not depend on the order of the two documents. -/
theorem synVocab_pair_comm (syn : String → Finset String) (a b : List String) :
    synVocab syn (a ++ b) = synVocab syn (b ++ a) := by
  rw [synVocab_append, synVocab_append, Finset.union_comm]

/-- Every synonym of a token of the list is in the vocabulary. -/
theorem mem_synVocab (syn : String → Finset String) {t : String} {l : List String}
    (ht : t ∈ l) {w : String} (hw : w ∈ syn t) : w ∈ synVocab syn l := by
  induction l with
  | nil => cases ht
  | cons u us ih =>
    rcases List.mem_cons.mp ht with h | h
    · subst h
      exact Finset.mem_union_left _ hw
    · exact Finset.mem_union_right _ (ih h)

/-- The vector norm is nonnegative. -/
theorem synNorm_nonneg (syn : String → Finset String) (vocab : Finset String)
    (tokens : List String) : 0 ≤ synNorm syn vocab tokens :=
  Real.sqrt_nonneg _

/-- The dot product is symmetric. -/
theorem synDot_comm (syn : String → Finset String) (o p : List String) :
    synDot syn o p = synDot syn p o := by
  unfold synDot
  rw [synVocab_pair_comm syn o p]
  exact Finset.sum_congr rfl fun w _ => Nat.mul_comm _ _

/-- Cauchy–Schwarz for the two frequency vectors: the dot product is at most
the product of the norms. -/
theorem synDot_le_norm_mul_norm (syn : String → Finset String)
    (o p : List String) (vocab : Finset String) :
    ((∑ w in vocab, synCount syn o w * synCount syn p w : ℕ) : ℝ) ≤
      synNorm syn vocab o * synNorm syn vocab p := by
  have hcast : ((∑ w in vocab, synCount syn o w * synCount syn p w : ℕ) : ℝ)
      = ∑ w in vocab, (synCount syn o w : ℝ) * (synCount syn p w : ℝ) := by
    push_cast
    rfl
  have hCS := Finset.sum_mul_sq_le_sq_mul_sq vocab
    (fun w => (synCount syn o w : ℝ)) (fun w => (synCount syn p w : ℝ))
  have hnonneg : 0 ≤ ∑ w in vocab, (synCount syn o w : ℝ) * (synCount syn p w : ℝ) :=
    Finset.sum_nonneg fun w _ => mul_nonneg (Nat.cast_nonneg _) (Nat.cast_nonneg _)
  have hf : 0 ≤ ∑ w in vocab, (synCount syn o w : ℝ) ^ 2 :=
    Finset.sum_nonneg fun w _ => sq_nonneg _
  rw [hcast]
  calc ∑ w in vocab, (synCount syn o w : ℝ) * (synCount syn p w : ℝ)
      = Real.sqrt ((∑ w in vocab, (synCount syn o w : ℝ) * (synCount syn p w : ℝ)) ^ 2) :=
        (Real.sqrt_sq hnonneg).symm
    _ ≤ Real.sqrt ((∑ w in vocab, (synCount syn o w : ℝ) ^ 2) *
          ∑ w in vocab, (synCount syn p w : ℝ) ^ 2) := Real.sqrt_le_sqrt hCS
    _ = synNorm syn vocab o * synNorm syn vocab p := Real.sqrt_mul hf _

/-- The cosine score is nonnegative. -/
theorem cosine_similarity_score_nonneg (syn : String → Finset String)
    (o p : List String) : 0 ≤ cosine_similarity_score syn o p := by
  unfold cosine_similarity_score
  split
  · exact le_refl 0
  · split
    · exact le_refl 0
    · exact div_nonneg (Nat.cast_nonneg _)
        (mul_nonneg (synNorm_nonneg _ _ _) (synNorm_nonneg _ _ _))

/-- The cosine score is at most one. -/
theorem cosine_similarity_score_le_one (syn : String → Finset String)
    (o p : List String) : cosine_similarity_score syn o p ≤ 1 := by
  unfold cosine_similarity_score
  split
  · exact zero_le_one
  · split
    · exact zero_le_one
    · rename_i hne hnorm
      push_neg at hnorm
      obtain ⟨h1, h2⟩ := hnorm
      have hp1 : 0 < synNorm syn (synVocab syn (o ++ p)) o :=
        lt_of_le_of_ne (synNorm_nonneg _ _ _) (Ne.symm h1)
      have hp2 : 0 < synNorm syn (synVocab syn (o ++ p)) p :=
        lt_of_le_of_ne (synNorm_nonneg _ _ _) (Ne.symm h2)
      rw [div_le_one (mul_pos hp1 hp2)]
      exact synDot_le_norm_mul_norm syn o p _

/-- The cosine score is symmetric. -/
theorem cosine_similarity_score_comm (syn : String → Finset String)
    (o p : List String) :
    cosine_similarity_score syn o p = cosine_similarity_score syn p o := by
  unfold cosine_similarity_score
  rw [synVocab_pair_comm syn p o, synDot_comm syn p o]
  by_cases h : o = [] ∨ p = []
  · rw [if_pos h, if_pos (Or.symm h)]
  · rw [if_neg h, if_neg (fun hc => h (Or.symm hc))]
    by_cases h2 : synNorm syn (synVocab syn (o ++ p)) o = 0 ∨
        synNorm syn (synVocab syn (o ++ p)) p = 0
    · rw [if_pos h2, if_pos (Or.symm h2)]
    · rw [if_neg h2, if_neg (fun hc => h2 (Or.symm hc)), mul_comm]

/-- With a synonym table that contains each token in its own synonym set
(as the spec requires), a non-empty token list compared with itself has
cosine score exactly one. -/
theorem cosine_similarity_score_self (syn : String → Finset String)
    (hsyn : ∀ t, t ∈ syn t) (T : List String) (hT : T ≠ []) :
    cosine_similarity_score syn T T = 1 := by
  obtain ⟨t, ht⟩ := List.exists_mem_of_ne_nil T hT
  have htV : t ∈ synVocab syn (T ++ T) :=
    mem_synVocab syn (List.mem_append_left T ht) (hsyn t)
  have hcnt : 1 ≤ synCount syn T t := by
    rw [synCount]
    refine List.countP_pos_iff.mpr ?_
    exact ⟨t, ht, by simp [hsyn t]⟩
  have hS : 0 < ∑ w in synVocab syn (T ++ T), (synCount syn T w : ℝ) ^ 2 := by
    have hle : ((synCount syn T t : ℝ)) ^ 2 ≤
        ∑ w in synVocab syn (T ++ T), (synCount syn T w : ℝ) ^ 2 :=
      Finset.single_le_sum (f := fun w => ((synCount syn T w : ℝ)) ^ 2)
        (fun w _ => sq_nonneg _) htV
    have h1 : (1 : ℝ) ≤ (synCount syn T t : ℝ) := by exact_mod_cast hcnt
    nlinarith
  have hnz : synNorm syn (synVocab syn (T ++ T)) T ≠ 0 := by
    rw [synNorm]
    exact ne_of_gt (Real.sqrt_pos.mpr hS)
  unfold cosine_similarity_score
  rw [if_neg (by tauto), if_neg (by tauto)]
  have hdot : ((synDot syn T T : ℕ) : ℝ)
      = ∑ w in synVocab syn (T ++ T), (synCount syn T w : ℝ) ^ 2 := by
    rw [synDot]
    push_cast
    exact Finset.sum_congr rfl fun w _ => (sq ((synCount syn T w : ℝ))).symm
  have hnn : synNorm syn (synVocab syn (T ++ T)) T *
      synNorm syn (synVocab syn (T ++ T)) T
      = ∑ w in synVocab syn (T ++ T), (synCount syn T w : ℝ) ^ 2 := by
    rw [synNorm]
    exact Real.mul_self_sqrt hS.le
  rw [hdot, hnn]
  exact div_self (ne_of_gt hS)

/-! ### Preprocessing and file reading: helper lemmas -/

/-- The two cleaning passes of `preprocess_text` compose to one
order-preserving filter over the characters of the input. -/
theorem preprocess_text_snd (cut : String → List String) (text : String) :
    (preprocess_text cut text).2 =
      String.mk (text.data.filter
        (fun c => !(punctuation_chars.contains c) && !(isPySpace c))) := by
  rw [preprocess_text]
  by_cases h : text = ""
  · subst h
    rfl
  · rw [if_neg h]
    simp only [removeWhitespace, removePunct, List.filter_filter]
    congr 1
    apply List.filter_congr
    intro c _
    exact Bool.and_comm _ _

/-- The encoding-trial loop returns exactly the post-processed result of the
first encoding whose decode succeeds. -/
theorem tryEncodings_eq_findSome (decode : String → List Nat → Option String)
    (data : List Nat) :
    ∀ encs : List String,
      tryEncodings decode data encs =
        match encs.findSome? (fun e => decode e data) with
        | none => Except.error "unable to determine the file encoding"
        | some raw =>
          if blankContent (pyStrip raw) then Except.error "file content is blank"
          else Except.ok (pyStrip raw) := by
  intro encs
  induction encs with
  | nil => rfl
  | cons enc rest ih =>
    rw [tryEncodings, List.findSome?_cons]
    cases hd : decode enc data with
    | none => simpa using ih
    | some raw => simp

/-! ### The claims -/

/-- Claim C1: given two non-empty token lists and two non-empty normalized
strings, the aggregator `calculate_similarity` returns a single value in
`[0, 1]` combining the three scorer outputs (spec-modelled combination:
equal-weighted mean, since the function body is absent from the source). -/
theorem claim_C1 (syn : String → Finset String)
    (original_tokens plagiarized_tokens : List String)
    (original_str plagiarized_str : String)
    (h1 : original_tokens ≠ []) (h2 : plagiarized_tokens ≠ [])
    (h3 : original_str ≠ "") (h4 : plagiarized_str ≠ "") :
    ∃ r : ℝ, calculate_similarity syn original_tokens plagiarized_tokens
        original_str plagiarized_str = some r ∧ 0 ≤ r ∧ r ≤ 1 := by
  rw [calculate_similarity, if_neg (by tauto)]
  have w0 := word_frequency_match_nonneg original_tokens plagiarized_tokens
  have w1 := word_frequency_match_le_one original_tokens plagiarized_tokens
  have c0 := cosine_similarity_score_nonneg syn original_tokens plagiarized_tokens
  have c1 := cosine_similarity_score_le_one syn original_tokens plagiarized_tokens
  have e0 := edit_distance_similarity_nonneg original_str plagiarized_str
  have e1 := edit_distance_similarity_le_one original_str plagiarized_str
  have w0' : (0 : ℝ) ≤ ((word_frequency_match original_tokens plagiarized_tokens : ℚ) : ℝ) := by
    exact_mod_cast w0
  have w1' : ((word_frequency_match original_tokens plagiarized_tokens : ℚ) : ℝ) ≤ 1 := by
    exact_mod_cast w1
  have e0' : (0 : ℝ) ≤ ((edit_distance_similarity original_str plagiarized_str : ℚ) : ℝ) := by
    exact_mod_cast e0
  have e1' : ((edit_distance_similarity original_str plagiarized_str : ℚ) : ℝ) ≤ 1 := by
    exact_mod_cast e1
  exact ⟨_, rfl, by linarith, by linarith⟩

/-- Witness for C1 at a concrete input. -/
theorem claim_C1_witness :
    ∃ r : ℝ, calculate_similarity (fun t => {t}) ["a"] ["b"] "a" "b" = some r ∧
      0 ≤ r ∧ r ≤ 1 :=
  claim_C1 (fun t => {t}) ["a"] ["b"] "a" "b"
    (by decide) (by decide) (by decide) (by decide)

/-- Claim C2: `word_frequency_match` greedily consumes candidate tokens
one-to-one against the original counts and divides by the candidate length
(the greedy walk matches, per distinct token, the minimum of the two
occurrence counts); on the documented example the score is `0.75`. -/
theorem claim_C2 :
    (∀ original plagiarized : List String,
        word_frequency_match original plagiarized =
          ((∑ w in plagiarized.toFinset,
              min (original.count w) (plagiarized.count w) : ℕ) : ℚ) /
            (plagiarized.length : ℚ)) ∧
      word_frequency_match ["这", "是", "第一个", "文本"] ["这", "是", "第二个", "文本"]
        = 0.75 := by
  constructor
  · exact word_frequency_match_eq_min_sum
  · rw [word_frequency_match, if_neg (by decide)]
    have hc : consumeCount
        (fun w => (["这", "是", "第一个", "文本"] : List String).count w)
        ["这", "是", "第二个", "文本"] = 3 := by decide
    rw [hc]
    norm_num

/-- Claim C3: for non-empty inputs `edit_distance_similarity` equals one
minus the classic unit-cost Levenshtein distance (Mathlib's dynamic-
programming implementation) divided by the longer length; the three
documented examples evaluate to `0.8`, `0.5` and `0.0`. -/
theorem claim_C3 :
    (∀ a b : String, a ≠ "" → b ≠ "" →
        edit_distance_similarity a b =
          1 - ((levenshtein Levenshtein.defaultCost a.data b.data : ℕ) : ℚ) /
              (max a.length b.length : ℚ)) ∧
      edit_distance_similarity "abcde" "abcxe" = 0.8 ∧
      edit_distance_similarity "你好世界" "你好中国" = 0.5 ∧
      edit_distance_similarity "abc" "def" = 0 := by
  refine ⟨?_, ?_, ?_, ?_⟩
  · intro a b ha hb
    rw [edit_distance_similarity, if_neg (by tauto), lev_eq_levenshtein]
  · rw [edit_distance_similarity, if_neg (by decide)]
    have hc : lev "abcde".data "abcxe".data = 1 := by decide
    have hl1 : ("abcde" : String).length = 5 := rfl
    have hl2 : ("abcxe" : String).length = 5 := rfl
    rw [hc, hl1, hl2]
    norm_num
  · rw [edit_distance_similarity, if_neg (by decide)]
    have hc : lev "你好世界".data "你好中国".data = 2 := by decide
    have hl1 : ("你好世界" : String).length = 4 := rfl
    have hl2 : ("你好中国" : String).length = 4 := rfl
    rw [hc, hl1, hl2]
    norm_num
  · rw [edit_distance_similarity, if_neg (by decide)]
    have hc : lev "abc".data "def".data = 3 := by decide
    have hl1 : ("abc" : String).length = 3 := rfl
    have hl2 : ("def" : String).length = 3 := rfl
    rw [hc, hl1, hl2]
    norm_num

/-- Witness for C3 at a concrete input. -/
theorem claim_C3_witness :
    edit_distance_similarity "ab" "b" =
      1 - ((levenshtein Levenshtein.defaultCost "ab".data "b".data : ℕ) : ℚ) /
          (max "ab".length "b".length : ℚ) :=
  claim_C3.1 "ab" "b" (by decide) (by decide)

/-- Claim C4: every scorer output lies in `[0, 1]`, for all inputs and any
synonym table. -/
theorem claim_C4 :
    (∀ o p : List String,
        0 ≤ word_frequency_match o p ∧ word_frequency_match o p ≤ 1) ∧
    (∀ (syn : String → Finset String) (o p : List String),
        0 ≤ cosine_similarity_score syn o p ∧ cosine_similarity_score syn o p ≤ 1) ∧
    (∀ a b : String,
        0 ≤ edit_distance_similarity a b ∧ edit_distance_similarity a b ≤ 1) :=
  ⟨fun o p => ⟨word_frequency_match_nonneg o p, word_frequency_match_le_one o p⟩,
   fun syn o p => ⟨cosine_similarity_score_nonneg syn o p,
     cosine_similarity_score_le_one syn o p⟩,
   fun a b => ⟨edit_distance_similarity_nonneg a b,
     edit_distance_similarity_le_one a b⟩⟩

/-- Claim C5: the edit-distance and cosine scores are symmetric in their two
documents, while the frequency-match score is not symmetric in general. -/
theorem claim_C5 :
    (∀ a b : String,
        edit_distance_similarity a b = edit_distance_similarity b a) ∧
    (∀ (syn : String → Finset String) (A B : List String),
        cosine_similarity_score syn A B = cosine_similarity_score syn B A) ∧
    ∃ A B : List String, word_frequency_match A B ≠ word_frequency_match B A := by
  refine ⟨edit_distance_similarity_comm, cosine_similarity_score_comm,
    ⟨["a"], ["a", "a"], ?_⟩⟩
  have h1 : word_frequency_match ["a"] ["a", "a"] = 1 / 2 := by
    rw [word_frequency_match, if_neg (by decide)]
    have hc : consumeCount (fun w => (["a"] : List String).count w) ["a", "a"] = 1 := by
      decide
    rw [hc]
    norm_num
  have h2 : word_frequency_match ["a", "a"] ["a"] = 1 := by
    rw [word_frequency_match, if_neg (by decide)]
    have hc : consumeCount (fun w => (["a", "a"] : List String).count w) ["a"] = 1 := by
      decide
    rw [hc]
    norm_num
  rw [h1, h2]
  norm_num

/-- Claim C6: comparing a non-empty input with itself scores exactly one for
each of the three scorers (for the cosine scorer, with any synonym table
containing each token in its own synonym set, as the spec requires). -/
theorem claim_C6 (syn : String → Finset String) (hsyn : ∀ t, t ∈ syn t)
    (T : List String) (hT : T ≠ []) (S : String) (hS : S ≠ "") :
    word_frequency_match T T = 1 ∧ cosine_similarity_score syn T T = 1 ∧
      edit_distance_similarity S S = 1 :=
  ⟨word_frequency_match_self T hT, cosine_similarity_score_self syn hsyn T hT,
    edit_distance_similarity_self S hS⟩

/-- Witness for C6 at a concrete input. -/
theorem claim_C6_witness :
    word_frequency_match ["a"] ["a"] = 1 ∧
      cosine_similarity_score (fun t => {t}) ["a"] ["a"] = 1 ∧
      edit_distance_similarity "a" "a" = 1 :=
  claim_C6 (fun t => {t}) (fun t => Finset.mem_singleton_self t)
    ["a"] (by decide) "a" (by decide)

/-- Claim C7: each scorer returns `0` (without failing) whenever either of
its inputs is empty, while the top-level `calculate_similarity` rejects
empty input (spec-modelled rejection, since its body is absent from the
source). -/
theorem claim_C7 :
    (∀ p : List String, word_frequency_match [] p = 0) ∧
    (∀ o : List String, word_frequency_match o [] = 0) ∧
    (∀ (syn : String → Finset String) (p : List String),
        cosine_similarity_score syn [] p = 0) ∧
    (∀ (syn : String → Finset String) (o : List String),
        cosine_similarity_score syn o [] = 0) ∧
    (∀ b : String, edit_distance_similarity "" b = 0) ∧
    (∀ a : String, edit_distance_similarity a "" = 0) ∧
    (∀ (syn : String → Finset String) (ot pt : List String) (os ps : String),
        ot = [] ∨ pt = [] ∨ os = "" ∨ ps = "" →
          calculate_similarity syn ot pt os ps = none) := by
  refine ⟨?_, ?_, ?_, ?_, ?_, ?_, ?_⟩
  · intro p
    rw [word_frequency_match, if_pos (Or.inl rfl)]
  · intro o
    rw [word_frequency_match, if_pos (Or.inr rfl)]
  · intro syn p
    unfold cosine_similarity_score
    rw [if_pos (Or.inl rfl)]
  · intro syn o
    unfold cosine_similarity_score
    rw [if_pos (Or.inr rfl)]
  · intro b
    rw [edit_distance_similarity, if_pos (Or.inl rfl)]
  · intro a
    rw [edit_distance_similarity, if_pos (Or.inr rfl)]
  · intro syn ot pt os ps h
    rw [calculate_similarity, if_pos h]

/-- Witness for C7 at a concrete input. -/
theorem claim_C7_witness :
    calculate_similarity (fun t => {t}) [] ["a"] "a" "a" = none :=
  claim_C7.2.2.2.2.2.2 (fun t => {t}) [] ["a"] "a" "a" (Or.inl rfl)

/-- Claim C8: the normalized string returned by `preprocess_text` is exactly
the input with the punctuation-set characters and the whitespace characters
removed, preserving the relative order (a sublist of the input's
characters) and leaving the surviving characters — including their case —
untouched. -/
theorem claim_C8 (cut : String → List String) (text : String) :
    (preprocess_text cut text).2 =
      String.mk (text.data.filter
        (fun c => !(punctuation_chars.contains c) && !(isPySpace c))) ∧
      (preprocess_text cut text).2.data.Sublist text.data := by
  refine ⟨preprocess_text_snd cut text, ?_⟩
  rw [preprocess_text_snd cut text]
  exact List.filter_sublist text.data

/-- Claim C9: `read_file` tries exactly the encodings `utf-8`, `utf-8-sig`,
`gbk`, `gb2312`, `ISO-8859-1`, `latin-1` in that order and returns the
(post-processed) result of the first decode that succeeds. -/
theorem claim_C9 :
    encodings = ["utf-8", "utf-8-sig", "gbk", "gb2312", "ISO-8859-1", "latin-1"] ∧
    ∀ (decode : String → List Nat → Option String) (data : List Nat),
      read_file decode data = read_file_spec decode data := by
  refine ⟨rfl, ?_⟩
  intro decode data
  rw [read_file, read_file_spec]
  exact tryEncodings_eq_findSome decode data encodings

/-- Claim C10: `preprocess_text` on the empty string returns the empty token
list and the empty string without failing. -/
theorem claim_C10 (cut : String → List String) :
    preprocess_text cut "" = ([], "") := by
  rw [preprocess_text, if_pos rfl]

end Plagiarism
